import Mathlib

/-!
Verification of the `async-recorder` core: the `Recorder` handle, the background
`Actor` event loop (`src/recorder.rs`) and the `Storage` collaborator contract with
its `Vec` and boxed reference implementations (`src/storage.rs`).

The embedding is a shallow one:

* A `Storage` implementation is a `StorageModel S R Q`: a state type `S`, a total
  `save` (the trait declares `save` infallible) and a `load` returning
  `Option (S × List R)`, where `none` models a panic inside `load` (the `Vec`
  implementation indexes a slice and panics on an out-of-bounds range).
* A `Command` is the message sent from the `Recorder` handle to the actor.  The
  `load` variant carries the query together with a `Bool` recording whether the
  one-shot reply receiver is still alive; the actor itself never branches on that
  flag (it executes `let _ = sender.send(records)`), it only determines whether the
  computed reply is delivered.
* The command queue is the list of all commands submitted (in submission order)
  before the handle was closed.  A blocking `recv` yields the head of the
  remaining queue, or terminates the loop when the queue is exhausted.  The only
  nondeterminism in `Actor::run` is whether a given `try_recv` call finds a
  message already available; this is resolved by an oracle `sched : List Bool`,
  one entry consumed per `try_recv` call made on a nonempty remaining queue.
* `Actor.drain` is the inner `try_recv` loop that pushes immediately available
  `Save` records onto the current bulk and stops either on a non-`Save` command
  (which is remembered in the `next` slot, never re-polled) or when nothing is
  available.
* `Actor.runFuel` is one iteration of the `while let` loop per fuel unit.  Every
  iteration consumes at least the current command, so the initial queue length
  bounds the number of iterations; `Actor.run` supplies that bound as fuel, and
  the refinement lemmas below show the bound is sufficient.  `runFuel` also
  returns the trace of calls the actor makes against the storage backend: one
  `Event.save` per bulk flush and one `Event.load` per answered query.
-/

/-- A command sent from the `Recorder` handle to the actor
(`enum Command` in `src/recorder.rs`).  `load alive q` models
`Command::Load(sender, q)` where `alive` records whether the oneshot receiver
is still listening. -/
inductive Command (R Q : Type) where
  | save (record : R)
  | load (alive : Bool) (query : Q)
deriving DecidableEq

/-- One call made by the actor against the storage backend: a bulk flush
(`storage.save(&mut bulk)`) or an answered query (`storage.load(query)` together
with the computed records and the delivery flag copied from the command). -/
inductive Event (R Q : Type) where
  | save (batch : List R)
  | load (alive : Bool) (query : Q) (result : List R)
deriving DecidableEq

/-- The `Storage` trait of `src/storage.rs`: a state type `S`, an infallible
`save` persisting a bulk of records, and a `load` answering a query, where
`none` models a panic inside the implementation. -/
structure StorageModel (S R Q : Type) where
  save : S → List R → S
  load : S → Q → Option (S × List R)

/-- A contiguous index range, `std::ops::Range<usize>`; `stop` is the
exclusive upper bound (`end` in Rust). -/
structure RangeQ where
  start : Nat
  stop : Nat
deriving DecidableEq

/-- `<Vec<T> as Storage>::load`: `self[query].to_owned()`.  Slice indexing
panics unless `start ≤ stop ∧ stop ≤ len`; in bounds it yields the elements at
positions `start, …, stop - 1`. -/
def vecLoad {α : Type} (s : List α) (q : RangeQ) : Option (List α) :=
  if q.start ≤ q.stop ∧ q.stop ≤ s.length then
    some ((s.drop q.start).take (q.stop - q.start))
  else
    none

/-- The reference in-memory `Storage` implementation `impl Storage for Vec<T>`:
`save` appends all given records (`self.append(records)`), `load` slices. -/
def vecModel (α : Type) : StorageModel (List α) α RangeQ where
  save := fun s batch => s ++ batch
  load := fun s q => Option.map (fun out => (s, out)) (vecLoad s q)

/-- `impl Storage for Box<dyn Storage>`: both operations forward to the inner
storage value (`(**self).save(records)` / `(**self).load(query)`). -/
def boxModel {S R Q : Type} (st : StorageModel S R Q) : StorageModel S R Q where
  save := fun s batch => st.save s batch
  load := fun s q => st.load s q

/-- Result of the actor's inner `try_recv` loop: the grown bulk, the optional
already-dequeued non-`Save` command (the look-ahead slot), and the remaining
queue and oracle. -/
structure DrainState (R Q : Type) where
  bulk : List R
  next : Option (Command R Q)
  queue : List (Command R Q)
  sched : List Bool
deriving DecidableEq

/-- The `loop { match self.receiver.try_recv() … }` inside the `Save` arm of
`Actor::run`: pull immediately available `Save` records into the bulk; stop with
the dequeued command remembered when a non-`Save` command arrives
(`Ok(other) => break Some(other)`); stop with nothing remembered when no message
is immediately available (`Err(_) => break None`). -/
def Actor.drain {R Q : Type} :
    List (Command R Q) → List Bool → List R → DrainState R Q
  | [], sched, bulk => ⟨bulk, none, [], sched⟩
  | c :: rest, [], bulk => ⟨bulk, none, c :: rest, []⟩
  | c :: rest, avail :: sched, bulk =>
    match avail, c with
    | true, Command.save r => Actor.drain rest sched (bulk ++ [r])
    | true, Command.load alive q => ⟨bulk, some (Command.load alive q), rest, sched⟩
    | false, _ => ⟨bulk, none, c :: rest, sched⟩

/-- One iteration of the `while let Some(command) = current.take()` loop of
`Actor::run` per fuel unit, given the current command and the remaining queue.
Every iteration consumes at least the current command, so any fuel larger than
the queue length is sufficient (`Actor.run` supplies it); exhausted fuel yields
`none`, as does a panicking `storage.load`. -/
def Actor.runFuel {S R Q : Type} (st : StorageModel S R Q) :
    Nat → S → Command R Q → List (Command R Q) → List Bool →
    Option (S × List (Event R Q))
  | 0, _, _, _, _ => none
  | Nat.succ fuel, storage, Command.save r, queue, sched =>
    match Actor.drain queue sched [r] with
    | ⟨bulk, next, queue2, sched2⟩ =>
      Option.map (fun p => (p.1, Event.save bulk :: p.2))
        (match next with
         | some c => Actor.runFuel st fuel (st.save storage bulk) c queue2 sched2
         | none =>
           match queue2 with
           | [] => some (st.save storage bulk, [])
           | c :: rest => Actor.runFuel st fuel (st.save storage bulk) c rest sched2)
  | Nat.succ fuel, storage, Command.load alive q, queue, sched =>
    match st.load storage q with
    | none => none
    | some (storage2, records) =>
      Option.map (fun p => (p.1, Event.load alive q records :: p.2))
        (match queue with
         | [] => some (storage2, [])
         | c :: rest => Actor.runFuel st fuel storage2 c rest sched)

/-- `Actor::run`: the initial blocking `recv` yields the queue head (or
terminates immediately on an already-closed empty queue), then the loop runs.
The queue length bounds the number of loop iterations and is passed as fuel. -/
def Actor.run {S R Q : Type} (st : StorageModel S R Q) (storage : S)
    (queue : List (Command R Q)) (sched : List Bool) :
    Option (S × List (Event R Q)) :=
  match queue with
  | [] => some (storage, [])
  | c :: rest => Actor.runFuel st queue.length storage c rest sched

/-- `Recorder::close`: drop the sender (so the queue holds exactly the commands
submitted before the close), join the actor, and hand back the storage. -/
def Recorder.close {S R Q : Type} (st : StorageModel S R Q) (storage : S)
    (queue : List (Command R Q)) (sched : List Bool) : Option S :=
  Option.map (fun p => p.1) (Actor.run st storage queue sched)

/-- `Recorder::with_lazy_storage`: the channel exists before the deferred
storage computation resolves, so commands submitted while waiting
(`preResolution`) sit in the queue ahead of later ones; once the computation
yields `resolved`, the actor runs on the whole queue. -/
def Recorder.withLazyStorage {S R Q : Type} (st : StorageModel S R Q)
    (resolved : S) (preResolution postResolution : List (Command R Q))
    (sched : List Bool) : Option (S × List (Event R Q)) :=
  Actor.run st resolved (preResolution ++ postResolution) sched

/-- The commands a trace accounts for: a flush consumed one `Save` command per
record in its batch, an answered query consumed one `Load` command. -/
def traceCommands {R Q : Type} : List (Event R Q) → List (Command R Q)
  | [] => []
  | Event.save batch :: rest => batch.map Command.save ++ traceCommands rest
  | Event.load alive q _ :: rest => Command.load alive q :: traceCommands rest

/-- The replies computed for the queries in a trace, in order. -/
def loadResults {R Q : Type} : List (Event R Q) → List (List R)
  | [] => []
  | Event.save _ :: rest => loadResults rest
  | Event.load _ _ res :: rest => res :: loadResults rest

/-- The records of the `Save` commands submitted before the `k`-th (0-based)
`Load` command of a command list. -/
def cmdSavesBefore {R Q : Type} : Nat → List (Command R Q) → List R
  | _, [] => []
  | k, Command.save r :: rest => r :: cmdSavesBefore k rest
  | 0, Command.load _ _ :: _ => []
  | Nat.succ k, Command.load _ _ :: rest => cmdSavesBefore k rest

/-- The records flushed to storage strictly before the `k`-th (0-based)
answered query of a trace. -/
def trSavesBefore {R Q : Type} : Nat → List (Event R Q) → List R
  | _, [] => []
  | k, Event.save batch :: rest => batch ++ trSavesBefore k rest
  | 0, Event.load _ _ _ :: _ => []
  | Nat.succ k, Event.load _ _ _ :: rest => trSavesBefore k rest

/-- The simple sequential semantics of the `Vec`-backed recorder: apply each
command one at a time, appending single records and slicing queries, with no
batching at all.  The batched actor refines this semantics for every schedule. -/
def vecSimple {α : Type} : List α → List (Command α RangeQ) →
    Option (List α × List (List α))
  | s, [] => some (s, [])
  | s, Command.save r :: rest => vecSimple (s ++ [r]) rest
  | s, Command.load _ q :: rest =>
    match vecLoad s q with
    | none => none
    | some out =>
      Option.map (fun p => (p.1, out :: p.2)) (vecSimple s rest)

/-- Forget the receiver-liveness flag of a command. -/
def clearCmd {R Q : Type} : Command R Q → Command R Q
  | Command.save r => Command.save r
  | Command.load _ q => Command.load true q

/-- Forget the receiver-liveness flags of a whole queue. -/
def clearFlags {R Q : Type} (l : List (Command R Q)) : List (Command R Q) :=
  l.map clearCmd

/-- Forget the delivery flag of a trace event, keeping the storage interaction
itself (batch, query and computed records). -/
def clearEv {R Q : Type} : Event R Q → Event R Q
  | Event.save b => Event.save b
  | Event.load _ q res => Event.load true q res

/-- The command list an optional look-ahead slot accounts for. -/
def nextList {R Q : Type} : Option (Command R Q) → List (Command R Q)
  | none => []
  | some c => [c]

lemma Actor.drain_decompose {R Q : Type} (q : List (Command R Q)) :
    ∀ (sched : List Bool) (b : List R),
    ∃ taken, (Actor.drain q sched b).bulk = b ++ taken ∧
      q = taken.map Command.save ++ nextList (Actor.drain q sched b).next ++
          (Actor.drain q sched b).queue := by
  induction q with
  | nil =>
    intro sched b
    exact ⟨[], by simp [Actor.drain], by simp [Actor.drain, nextList]⟩
  | cons c rest ih =>
    intro sched b
    match sched with
    | [] => exact ⟨[], by simp [Actor.drain], by simp [Actor.drain, nextList]⟩
    | avail :: sched2 =>
      match avail, c with
      | true, Command.save r =>
        obtain ⟨taken, h1, h2⟩ := ih sched2 (b ++ [r])
        refine ⟨r :: taken, ?_, ?_⟩
        · simp only [Actor.drain]
          rw [h1]
          simp
        · simp only [Actor.drain]
          simp only [List.map_cons, List.cons_append]
          exact congrArg (List.cons (Command.save r)) h2
      | true, Command.load alive qq =>
        exact ⟨[], by simp [Actor.drain], by simp [Actor.drain, nextList]⟩
      | false, c =>
        exact ⟨[], by simp [Actor.drain], by simp [Actor.drain, nextList]⟩

lemma Actor.drain_all_saves {R Q : Type} (l : List R) :
    ∀ (b : List R),
    Actor.drain (l.map (Command.save (Q := Q))) (List.replicate l.length true) b
      = ⟨b ++ l, none, [], []⟩ := by
  induction l with
  | nil => intro b; simp [Actor.drain]
  | cons r rest ih =>
    intro b
    simp only [List.map_cons, List.length_cons, List.replicate_succ, Actor.drain]
    rw [ih (b ++ [r])]
    simp

lemma Actor.drain_clear {R Q : Type} (q : List (Command R Q)) :
    ∀ (sched : List Bool) (b : List R),
    Actor.drain (clearFlags q) sched b
      = ⟨(Actor.drain q sched b).bulk,
         Option.map clearCmd (Actor.drain q sched b).next,
         clearFlags (Actor.drain q sched b).queue,
         (Actor.drain q sched b).sched⟩ := by
  induction q with
  | nil => intro sched b; simp [Actor.drain, clearFlags]
  | cons c rest ih =>
    intro sched b
    match sched with
    | [] => simp [Actor.drain, clearFlags]
    | avail :: sched2 =>
      match avail, c with
      | true, Command.save r =>
        simp only [clearFlags, List.map_cons, clearCmd, Actor.drain]
        exact ih sched2 (b ++ [r])
      | true, Command.load alive qq =>
        simp [clearFlags, clearCmd, Actor.drain]
      | false, c =>
        simp [clearFlags, clearCmd, Actor.drain]

lemma Actor.runFuel_traceCommands {S R Q : Type} (st : StorageModel S R Q) :
    ∀ (fuel : Nat) (s : S) (c : Command R Q) (queue : List (Command R Q))
      (sched : List Bool) (fs : S) (tr : List (Event R Q)),
      Actor.runFuel st fuel s c queue sched = some (fs, tr) →
      traceCommands tr = c :: queue := by
  intro fuel
  induction fuel with
  | zero =>
    intro s c queue sched fs tr h
    simp [Actor.runFuel] at h
  | succ n ih =>
    intro s c queue sched fs tr h
    cases c with
    | save r =>
      rcases hd : Actor.drain queue sched [r] with ⟨bulk, next, queue2, sched2⟩
      obtain ⟨taken, hb, hq⟩ := Actor.drain_decompose queue sched [r]
      rw [hd] at hb hq
      dsimp only at hb hq
      cases next with
      | some c2 =>
        simp only [Actor.runFuel, hd] at h
        cases hrec : Actor.runFuel st n (st.save s bulk) c2 queue2 sched2 with
        | none => rw [hrec] at h; simp at h
        | some p =>
          rw [hrec] at h
          simp at h
          obtain ⟨hfs, htr⟩ := h
          have ht := ih _ _ _ _ _ _ hrec
          rw [← htr]
          simp only [traceCommands, ht, hq, nextList]
          simp [hb]
      | none =>
        cases queue2 with
        | nil =>
          simp only [Actor.runFuel, hd] at h
          simp at h
          obtain ⟨hfs, htr⟩ := h
          rw [← htr]
          simp only [traceCommands, hq, nextList]
          simp [hb]
        | cons c2 rest =>
          simp only [Actor.runFuel, hd] at h
          cases hrec : Actor.runFuel st n (st.save s bulk) c2 rest sched2 with
          | none => rw [hrec] at h; simp at h
          | some p =>
            rw [hrec] at h
            simp at h
            obtain ⟨hfs, htr⟩ := h
            have ht := ih _ _ _ _ _ _ hrec
            rw [← htr]
            simp only [traceCommands, ht, hq, nextList]
            simp [hb]
    | load alive q =>
      cases hl : st.load s q with
      | none =>
        simp only [Actor.runFuel, hl] at h
        exact Option.noConfusion h
      | some p2 =>
        obtain ⟨storage2, records⟩ := p2
        cases queue with
        | nil =>
          simp only [Actor.runFuel, hl] at h
          simp at h
          obtain ⟨hfs, htr⟩ := h
          rw [← htr]
          simp [traceCommands]
        | cons c2 rest =>
          simp only [Actor.runFuel, hl] at h
          cases hrec : Actor.runFuel st n storage2 c2 rest sched with
          | none => rw [hrec] at h; simp at h
          | some p =>
            rw [hrec] at h
            simp at h
            obtain ⟨hfs, htr⟩ := h
            have ht := ih _ _ _ _ _ _ hrec
            rw [← htr]
            simp [traceCommands, ht]

lemma Actor.run_traceCommands {S R Q : Type} (st : StorageModel S R Q)
    (s : S) (queue : List (Command R Q)) (sched : List Bool) (fs : S)
    (tr : List (Event R Q)) (h : Actor.run st s queue sched = some (fs, tr)) :
    traceCommands tr = queue := by
  cases queue with
  | nil =>
    simp only [Actor.run, Option.some.injEq, Prod.mk.injEq] at h
    rw [← h.2]
    simp [traceCommands]
  | cons c rest => exact Actor.runFuel_traceCommands st _ s c rest sched fs tr h

lemma vecSimple_saves {α : Type} (taken : List α) :
    ∀ (s : List α) (rest : List (Command α RangeQ)),
    vecSimple s (taken.map Command.save ++ rest) = vecSimple (s ++ taken) rest := by
  induction taken with
  | nil => intro s rest; simp
  | cons r taken2 ih =>
    intro s rest
    simp only [List.map_cons, List.cons_append, vecSimple, List.append_eq]
    rw [ih (s ++ [r]) rest]
    simp

lemma vecSimple_all_saves {α : Type} (s : List α) (rs : List α) :
    vecSimple s (rs.map Command.save) = some (s ++ rs, []) := by
  have h := vecSimple_saves rs s []
  rw [List.append_nil] at h
  rw [h]
  simp [vecSimple]

lemma Actor.runFuel_vecSimple {α : Type} :
    ∀ (fuel : Nat) (c : Command α RangeQ) (queue : List (Command α RangeQ))
      (sched : List Bool) (s : List α),
      queue.length < fuel →
      Option.map (fun p => (p.1, loadResults p.2))
          (Actor.runFuel (vecModel α) fuel s c queue sched)
        = vecSimple s (c :: queue) := by
  intro fuel
  induction fuel with
  | zero =>
    intro c queue sched s hlt
    exact absurd hlt (Nat.not_lt_zero _)
  | succ n ih =>
    intro c queue sched s hlt
    cases c with
    | save r =>
      rcases hd : Actor.drain queue sched [r] with ⟨bulk, next, queue2, sched2⟩
      obtain ⟨taken, hb, hq⟩ := Actor.drain_decompose queue sched [r]
      rw [hd] at hb hq
      dsimp only at hb hq
      have hrhs : vecSimple s (Command.save r :: queue)
          = vecSimple (s ++ bulk) (nextList next ++ queue2) := by
        rw [hq]
        simp only [vecSimple, List.append_assoc]
        rw [vecSimple_saves taken (s ++ [r]) (nextList next ++ queue2)]
        rw [hb]
        simp
      rw [hrhs]
      have hsave : StorageModel.save (vecModel α) s bulk = s ++ bulk := rfl
      cases next with
      | some c2 =>
        have hlen : queue2.length < n := by
          have := congrArg List.length hq
          simp [nextList] at this
          omega
        have hih := ih c2 queue2 sched2 (s ++ bulk) hlen
        simp only [Actor.runFuel, hd, hsave, nextList, List.cons_append, List.nil_append]
        rw [← hih]
        cases Actor.runFuel (vecModel α) n (s ++ bulk) c2 queue2 sched2 with
        | none => simp
        | some p => simp [loadResults]
      | none =>
        cases queue2 with
        | nil =>
          simp only [Actor.runFuel, hd, hsave, nextList, List.nil_append]
          simp [vecSimple, loadResults]
        | cons c2 rest =>
          have hlen : rest.length < n := by
            have := congrArg List.length hq
            simp [nextList] at this
            omega
          have hih := ih c2 rest sched2 (s ++ bulk) hlen
          simp only [Actor.runFuel, hd, hsave, nextList, List.nil_append]
          rw [← hih]
          cases Actor.runFuel (vecModel α) n (s ++ bulk) c2 rest sched2 with
          | none => simp
          | some p => simp [loadResults]
    | load alive q =>
      cases hvl : vecLoad s q with
      | none =>
        have hload : StorageModel.load (vecModel α) s q = none := by
          simp [vecModel, hvl]
        cases queue with
        | nil => simp [Actor.runFuel, hload, vecSimple, hvl]
        | cons c2 rest => simp [Actor.runFuel, hload, vecSimple, hvl]
      | some out =>
        have hload : StorageModel.load (vecModel α) s q = some (s, out) := by
          simp [vecModel, hvl]
        cases queue with
        | nil => simp [Actor.runFuel, hload, vecSimple, hvl, loadResults]
        | cons c2 rest =>
          have hlen : rest.length < n := by
            simp only [List.length_cons] at hlt
            omega
          have hih := ih c2 rest sched s hlen
          simp only [Actor.runFuel, hload, vecSimple, hvl]
          rw [← hih]
          cases Actor.runFuel (vecModel α) n s c2 rest sched with
          | none => simp
          | some p => simp [loadResults]

lemma Actor.run_vecSimple {α : Type} (s : List α) (queue : List (Command α RangeQ))
    (sched : List Bool) :
    Option.map (fun p => (p.1, loadResults p.2)) (Actor.run (vecModel α) s queue sched)
      = vecSimple s queue := by
  cases queue with
  | nil => simp [Actor.run, vecSimple, loadResults]
  | cons c rest =>
    exact Actor.runFuel_vecSimple (rest.length + 1) c rest sched s (Nat.lt_succ_self _)

lemma Actor.runFuel_clear {S R Q : Type} (st : StorageModel S R Q) :
    ∀ (fuel : Nat) (c : Command R Q) (queue : List (Command R Q))
      (sched : List Bool) (s : S),
      Actor.runFuel st fuel s (clearCmd c) (clearFlags queue) sched
        = Option.map (fun p => (p.1, p.2.map clearEv))
            (Actor.runFuel st fuel s c queue sched) := by
  intro fuel
  induction fuel with
  | zero => intro c queue sched s; simp [Actor.runFuel]
  | succ n ih =>
    intro c queue sched s
    cases c with
    | save r =>
      rcases hd : Actor.drain queue sched [r] with ⟨bulk, next, queue2, sched2⟩
      have hdc := Actor.drain_clear queue sched [r]
      rw [hd] at hdc
      dsimp only at hdc
      rw [show clearCmd (Command.save r) = Command.save r from rfl]
      cases next with
      | some c2 =>
        rw [show Option.map clearCmd (some c2) = some (clearCmd c2) from rfl] at hdc
        simp only [Actor.runFuel, hd, hdc]
        rw [ih c2 queue2 sched2 (st.save s bulk)]
        cases Actor.runFuel st n (st.save s bulk) c2 queue2 sched2 with
        | none => simp
        | some p => simp [clearEv]
      | none =>
        rw [show Option.map clearCmd (none : Option (Command R Q)) = none from rfl] at hdc
        cases queue2 with
        | nil =>
          rw [show clearFlags ([] : List (Command R Q)) = [] from rfl] at hdc
          simp only [Actor.runFuel, hd, hdc]
          simp [clearEv]
        | cons c2 rest =>
          rw [show clearFlags (c2 :: rest) = clearCmd c2 :: clearFlags rest from rfl] at hdc
          simp only [Actor.runFuel, hd, hdc]
          rw [ih c2 rest sched2 (st.save s bulk)]
          cases Actor.runFuel st n (st.save s bulk) c2 rest sched2 with
          | none => simp
          | some p => simp [clearEv]
    | load alive q =>
      rw [show clearCmd (Command.load alive q) = Command.load true q from rfl]
      cases hl : st.load s q with
      | none => simp [Actor.runFuel, hl]
      | some p2 =>
        obtain ⟨storage2, records⟩ := p2
        cases queue with
        | nil =>
          rw [show clearFlags ([] : List (Command R Q)) = [] from rfl]
          simp only [Actor.runFuel, hl]
          simp [clearEv]
        | cons c2 rest =>
          rw [show clearFlags (c2 :: rest) = clearCmd c2 :: clearFlags rest from rfl]
          simp only [Actor.runFuel, hl]
          rw [ih c2 rest sched storage2]
          cases Actor.runFuel st n storage2 c2 rest sched with
          | none => simp
          | some p => simp [clearEv]

lemma Actor.run_clear {S R Q : Type} (st : StorageModel S R Q) (s : S)
    (queue : List (Command R Q)) (sched : List Bool) :
    Actor.run st s (clearFlags queue) sched
      = Option.map (fun p => (p.1, p.2.map clearEv)) (Actor.run st s queue sched) := by
  cases queue with
  | nil => simp [Actor.run, clearFlags]
  | cons c rest =>
    simp only [Actor.run, clearFlags, List.map_cons, List.length_cons, List.length_map]
    exact Actor.runFuel_clear st (rest.length + 1) c rest sched s

lemma cmdSavesBefore_saves {R Q : Type} (batch : List R) :
    ∀ (k : Nat) (l : List (Command R Q)),
    cmdSavesBefore k (batch.map Command.save ++ l) = batch ++ cmdSavesBefore k l := by
  induction batch with
  | nil => intro k l; simp
  | cons r batch2 ih =>
    intro k l
    simp [List.map_cons, List.cons_append, cmdSavesBefore, ih k l]

lemma traceCommands_savesBefore {R Q : Type} (tr : List (Event R Q)) :
    ∀ (k : Nat), cmdSavesBefore k (traceCommands tr) = trSavesBefore k tr := by
  induction tr with
  | nil => intro k; simp [traceCommands, cmdSavesBefore, trSavesBefore]
  | cons e rest ih =>
    intro k
    cases e with
    | save batch =>
      simp only [traceCommands, trSavesBefore]
      rw [cmdSavesBefore_saves batch k (traceCommands rest), ih k]
    | load alive q res =>
      cases k with
      | zero => simp [traceCommands, cmdSavesBefore, trSavesBefore]
      | succ k2 =>
        simp only [traceCommands, cmdSavesBefore, trSavesBefore]
        exact ih k2

/-- C1: A `Load` is answered only after every `Save` that preceded it in
submission order has been flushed: for every successful run, the records
flushed before the `k`-th answered query of the trace are exactly the records
of the `Save` commands submitted before the `k`-th `Load` command; and for
`save("first")`, `save("second")`, `save("third")` then `records(0..2)` against
the `Vec` storage the answer is exactly `["first", "second"]`, for every
schedule. -/
theorem load_answered_after_preceding_saves_flushed :
    (∀ (S R Q : Type) (st : StorageModel S R Q) (s : S) (queue : List (Command R Q))
       (sched : List Bool) (fs : S) (tr : List (Event R Q)) (k : Nat),
       Actor.run st s queue sched = some (fs, tr) →
       trSavesBefore k tr = cmdSavesBefore k queue)
    ∧ (∀ sched : List Bool, ∃ tr,
        Actor.run (vecModel String) []
            [Command.save "first", Command.save "second", Command.save "third",
             Command.load true ⟨0, 2⟩] sched
          = some (["first", "second", "third"], tr)
        ∧ loadResults tr = [["first", "second"]]) := by
  constructor
  · intro S R Q st s queue sched fs tr k h
    have hc := Actor.run_traceCommands st s queue sched fs tr h
    rw [← hc]
    exact (traceCommands_savesBefore tr k).symm
  · intro sched
    have h := Actor.run_vecSimple []
      [Command.save "first", Command.save "second", Command.save "third",
       Command.load true ⟨0, 2⟩] sched
    rw [show vecSimple ([] : List String)
        [Command.save "first", Command.save "second", Command.save "third",
         Command.load true ⟨0, 2⟩]
        = some (["first", "second", "third"], [["first", "second"]]) from rfl] at h
    cases hr : Actor.run (vecModel String) []
        [Command.save "first", Command.save "second", Command.save "third",
         Command.load true ⟨0, 2⟩] sched with
    | none => rw [hr] at h; exact absurd h (by simp)
    | some p =>
      obtain ⟨fs2, tr2⟩ := p
      rw [hr] at h
      simp at h
      refine ⟨tr2, ?_, h.2⟩
      rw [h.1]

theorem load_answered_after_preceding_saves_flushed_witness :
    trSavesBefore 0
        [Event.save ["first"], Event.save ["second"], Event.save ["third"],
         Event.load true (RangeQ.mk 0 2) ["first", "second"]]
      = cmdSavesBefore 0
          [Command.save "first", Command.save "second", Command.save "third",
           Command.load true (RangeQ.mk 0 2)] :=
  load_answered_after_preceding_saves_flushed.1 (List String) String RangeQ
    (vecModel String) []
    [Command.save "first", Command.save "second", Command.save "third",
     Command.load true (RangeQ.mk 0 2)]
    [] ["first", "second", "third"]
    [Event.save ["first"], Event.save ["second"], Event.save ["third"],
     Event.load true (RangeQ.mk 0 2) ["first", "second"]]
    0 (by rfl)

/-- C2: `Save` commands already queued when the actor dequeues the first of
them are flushed in exactly one `storage.save` call holding all of them in
enqueue order; concretely, `save("first")`, `save("second")` enqueued while the
backend has not completed a flush yield a single bulk `["first", "second"]`. -/
theorem queued_saves_coalesce_into_single_bulk :
    (∀ (S R Q : Type) (st : StorageModel S R Q) (s : S) (r : R) (rs : List R),
       Actor.run st s ((r :: rs).map Command.save) (List.replicate rs.length true)
         = some (st.save s (r :: rs), [Event.save (r :: rs)]))
    ∧ Actor.run (vecModel String) [] [Command.save "first", Command.save "second"] [true]
        = some (["first", "second"], [Event.save ["first", "second"]]) := by
  constructor
  · intro S R Q st s r rs
    simp only [Actor.run, List.map_cons, List.length_cons, List.length_map]
    simp only [Actor.runFuel, Actor.drain_all_saves]
    simp
  · rfl

/-- C3: for every sequence of saves submitted by the producer before `close`
and every schedule (that is, however the actor partitions the sequence into
bulks), `close` hands back the `Vec` storage holding its initial content
followed by the records in submission order. -/
theorem final_storage_in_submission_order :
    ∀ (α : Type) (s : List α) (rs : List α) (sched : List Bool),
    Recorder.close (vecModel α) s (rs.map Command.save) sched = some (s ++ rs) := by
  intro α s rs sched
  have h := Actor.run_vecSimple s (rs.map Command.save) sched
  rw [vecSimple_all_saves] at h
  unfold Recorder.close
  cases hr : Actor.run (vecModel α) s (rs.map Command.save) sched with
  | none => rw [hr] at h; exact absurd h (by simp)
  | some p =>
    obtain ⟨fs2, tr2⟩ := p
    rw [hr] at h
    simp at h
    simp [h.1]

/-- C4: every command enqueued before `close` is consumed exactly once: a
successful trace accounts for the whole queue, in order, with each `Save`
record flushed once and each `Load` answered once; in particular a `Load`
dequeued by the look-ahead drain (as in the concrete run below, schedule
`[true]`) is answered right after the flush and neither lost nor duplicated. -/
theorem every_command_consumed_exactly_once :
    (∀ (S R Q : Type) (st : StorageModel S R Q) (s : S) (queue : List (Command R Q))
       (sched : List Bool) (fs : S) (tr : List (Event R Q)),
       Actor.run st s queue sched = some (fs, tr) → traceCommands tr = queue)
    ∧ Actor.run (vecModel Nat) []
        [Command.save 10, Command.load true ⟨0, 1⟩, Command.save 20] [true]
        = some ([10, 20],
            [Event.save [10], Event.load true ⟨0, 1⟩ [10], Event.save [20]]) :=
  ⟨fun S R Q st s queue sched fs tr h =>
    Actor.run_traceCommands st s queue sched fs tr h, rfl⟩

theorem every_command_consumed_exactly_once_witness :
    traceCommands
        [Event.save [10], Event.load true (RangeQ.mk 0 1) [10], Event.save [20]]
      = [Command.save 10, Command.load true (RangeQ.mk 0 1), Command.save 20] :=
  every_command_consumed_exactly_once.1 (List Nat) Nat RangeQ (vecModel Nat) []
    [Command.save 10, Command.load true (RangeQ.mk 0 1), Command.save 20] [true]
    [10, 20]
    [Event.save [10], Event.load true (RangeQ.mk 0 1) [10], Event.save [20]]
    (by rfl)

/-- C5: with lazy construction, every command submitted before the deferred
storage computation resolves sits in the queue ahead of later commands and is
consumed by the actor (none rejected or lost); concretely, `save("second")`
submitted before the deferred storage (resolving to `["first"]`) is ready,
followed by `records(0..2)`, yields `["first", "second"]` for every schedule. -/
theorem lazy_storage_preserves_early_saves :
    (∀ (S R Q : Type) (st : StorageModel S R Q) (resolved : S)
       (pre post : List (Command R Q)) (sched : List Bool) (fs : S)
       (tr : List (Event R Q)),
       Recorder.withLazyStorage st resolved pre post sched = some (fs, tr) →
       traceCommands tr = pre ++ post)
    ∧ (∀ sched : List Bool, ∃ tr,
        Recorder.withLazyStorage (vecModel String) ["first"]
            [Command.save "second"] [Command.load true ⟨0, 2⟩] sched
          = some (["first", "second"], tr)
        ∧ loadResults tr = [["first", "second"]]) := by
  constructor
  · intro S R Q st resolved pre post sched fs tr h
    exact Actor.run_traceCommands st resolved (pre ++ post) sched fs tr h
  · intro sched
    have h := Actor.run_vecSimple ["first"]
      [Command.save "second", Command.load true ⟨0, 2⟩] sched
    rw [show vecSimple ["first"]
        [Command.save "second", Command.load true ⟨0, 2⟩]
        = some (["first", "second"], [["first", "second"]]) from rfl] at h
    cases hr : Actor.run (vecModel String) ["first"]
        [Command.save "second", Command.load true ⟨0, 2⟩] sched with
    | none => rw [hr] at h; exact absurd h (by simp)
    | some p =>
      obtain ⟨fs2, tr2⟩ := p
      rw [hr] at h
      simp at h
      refine ⟨tr2, ?_, h.2⟩
      have hrun : Recorder.withLazyStorage (vecModel String) ["first"]
          [Command.save "second"] [Command.load true ⟨0, 2⟩] sched
          = some (fs2, tr2) := hr
      rw [hrun, h.1]

theorem lazy_storage_preserves_early_saves_witness :
    traceCommands
        [Event.save ["second"], Event.load true (RangeQ.mk 0 2) ["first", "second"]]
      = [Command.save "second"] ++ [Command.load true (RangeQ.mk 0 2)] :=
  lazy_storage_preserves_early_saves.1 (List String) String RangeQ
    (vecModel String) ["first"] [Command.save "second"]
    [Command.load true (RangeQ.mk 0 2)] []
    ["first", "second"]
    [Event.save ["second"], Event.load true (RangeQ.mk 0 2) ["first", "second"]]
    (by rfl)

/-- C6: answering a `Load` whose reply receiver was dropped is silent: whether
the receiver of one `Load` is alive or not, the run fails in exactly the same
cases, yields the same final storage, and performs the same storage
interactions (same flushes, same queries, same computed records) — only the
delivery flag of that one reply differs. -/
theorem dropped_receiver_reply_is_discarded_silently :
    ∀ (S R Q : Type) (st : StorageModel S R Q) (s : S)
      (pre post : List (Command R Q)) (q : Q) (sched : List Bool),
      Option.map (fun p => p.1)
          (Actor.run st s (pre ++ Command.load false q :: post) sched)
        = Option.map (fun p => p.1)
            (Actor.run st s (pre ++ Command.load true q :: post) sched)
      ∧ Option.map (fun p => List.map clearEv p.2)
            (Actor.run st s (pre ++ Command.load false q :: post) sched)
        = Option.map (fun p => List.map clearEv p.2)
            (Actor.run st s (pre ++ Command.load true q :: post) sched)
      ∧ (Actor.run st s (pre ++ Command.load false q :: post) sched = none
          ↔ Actor.run st s (pre ++ Command.load true q :: post) sched = none) := by
  intro S R Q st s pre post q sched
  have h1 := Actor.run_clear st s (pre ++ Command.load false q :: post) sched
  have h2 := Actor.run_clear st s (pre ++ Command.load true q :: post) sched
  have heq : clearFlags (pre ++ Command.load false q :: post)
      = clearFlags (pre ++ Command.load true q :: post) := by
    simp [clearFlags, clearCmd]
  rw [heq] at h1
  have hmap := h1.symm.trans h2
  cases hr1 : Actor.run st s (pre ++ Command.load false q :: post) sched with
  | none =>
    cases hr2 : Actor.run st s (pre ++ Command.load true q :: post) sched with
    | none => simp
    | some p2 =>
      rw [hr1, hr2] at hmap
      exact absurd hmap (by simp)
  | some p1 =>
    cases hr2 : Actor.run st s (pre ++ Command.load true q :: post) sched with
    | none =>
      rw [hr1, hr2] at hmap
      exact absurd hmap (by simp)
    | some p2 =>
      obtain ⟨a1, t1⟩ := p1
      obtain ⟨a2, t2⟩ := p2
      rw [hr1, hr2] at hmap
      simp at hmap
      simp [hmap.1, hmap.2]

/-- C7: the boxed storage forwards both operations unchanged, so a
runtime-selected backend behaves identically to the statically-typed one: its
`save` and `load` agree pointwise with the inner storage's, and the whole actor
run is unchanged by boxing. -/
theorem boxed_storage_behaves_identically :
    ∀ (S R Q : Type) (st : StorageModel S R Q),
      (∀ (s : S) (batch : List R), (boxModel st).save s batch = st.save s batch)
      ∧ (∀ (s : S) (q : Q), (boxModel st).load s q = st.load s q)
      ∧ (∀ (s : S) (queue : List (Command R Q)) (sched : List Bool),
          Actor.run (boxModel st) s queue sched = Actor.run st s queue sched) := by
  intro S R Q st
  have hbox : boxModel st = st := rfl
  exact ⟨fun s batch => rfl, fun s q => rfl, fun s queue sched => by rw [hbox]⟩

/-- C8: closing a recorder that never received a command hands back the storage
value originally supplied, and the actor performs no `storage.save` or
`storage.load` call at all (empty trace). -/
theorem close_with_no_commands_returns_storage_unchanged :
    ∀ (S R Q : Type) (st : StorageModel S R Q) (s : S) (sched : List Bool),
      Recorder.close st s ([] : List (Command R Q)) sched = some s
      ∧ Actor.run st s ([] : List (Command R Q)) sched = some (s, []) := by
  intro S R Q st s sched
  exact ⟨rfl, rfl⟩

/-- C9: for the `Vec` storage, `load` is read-only and idempotent: a successful
`load` leaves the storage state unchanged, and repeating the same query on the
resulting state returns the very same answer. -/
theorem vec_load_idempotent_and_readonly :
    ∀ (α : Type) (s : List α) (q : RangeQ) (p : List α × List α),
      StorageModel.load (vecModel α) s q = some p →
      p.1 = s ∧ StorageModel.load (vecModel α) p.1 q = some p := by
  intro α s q p h
  have hdef : StorageModel.load (vecModel α) s q
      = Option.map (fun out => (s, out)) (vecLoad s q) := rfl
  rw [hdef] at h
  cases hvl : vecLoad s q with
  | none => rw [hvl] at h; exact Option.noConfusion h
  | some out =>
    rw [hvl] at h
    have h2 : (s, out) = p := by simpa using h
    rw [← h2]
    refine ⟨rfl, ?_⟩
    show StorageModel.load (vecModel α) s q = some (s, out)
    rw [hdef, hvl]
    rfl

theorem vec_load_idempotent_and_readonly_witness :
    (([5, 7], [5]) : List Nat × List Nat).1 = [5, 7]
    ∧ StorageModel.load (vecModel Nat) (([5, 7], [5]) : List Nat × List Nat).1 ⟨0, 1⟩
        = some ([5, 7], [5]) :=
  vec_load_idempotent_and_readonly Nat [5, 7] ⟨0, 1⟩ ([5, 7], [5]) (by rfl)

/-- C10: the `Vec` storage's `load` is partial: under the precondition
`start ≤ stop ≤ length` it returns exactly the records at positions
`start, …, stop - 1`, and for any range violating the precondition the slice
indexing panics (modelled as `none`) instead of clamping. -/
theorem vec_load_requires_range_in_bounds :
    ∀ (α : Type) (s : List α) (a b : Nat),
      (a ≤ b → b ≤ s.length →
        ∃ out, vecLoad s ⟨a, b⟩ = some out ∧ out.length = b - a
          ∧ ∀ (i : Nat) (hi : i < out.length) (hs : a + i < s.length),
              out.get ⟨i, hi⟩ = s.get ⟨a + i, hs⟩)
      ∧ (¬ (a ≤ b ∧ b ≤ s.length) → vecLoad s ⟨a, b⟩ = none) := by
  intro α s a b
  constructor
  · intro hab hbl
    refine ⟨(s.drop a).take (b - a), ?_, ?_, ?_⟩
    · simp [vecLoad, hab, hbl]
    · simp only [List.length_take, List.length_drop]
      omega
    · intro i hi hs
      simp only [List.get_eq_getElem]
      rw [List.getElem_take, List.getElem_drop]
  · intro hcon
    simp [vecLoad]
    intro hab
    rcases Nat.lt_or_ge s.length b with hlt | hge
    · omega
    · exact absurd ⟨hab, hge⟩ hcon

theorem vec_load_requires_range_in_bounds_witness :
    (∃ out, vecLoad ([10, 20, 30] : List Nat) ⟨1, 3⟩ = some out
      ∧ out.length = 3 - 1
      ∧ ∀ (i : Nat) (hi : i < out.length)
          (hs : 1 + i < ([10, 20, 30] : List Nat).length),
          out.get ⟨i, hi⟩ = ([10, 20, 30] : List Nat).get ⟨1 + i, hs⟩)
    ∧ vecLoad ([10, 20, 30] : List Nat) ⟨2, 1⟩ = none :=
  ⟨(vec_load_requires_range_in_bounds Nat [10, 20, 30] 1 3).1 (by decide) (by decide),
   (vec_load_requires_range_in_bounds Nat [10, 20, 30] 2 1).2 (by decide)⟩
